import Mathlib

/-!
# WBUDY `wiatrak_v4/src/main.c`: embedding and verified properties

The firmware is a single control loop for an LPC17xx board.  This file embeds
the parts of `main.c` that carry decision logic:

* `intToString` (lines 221-248), the integer renderer;
* `joystic_colors` (lines 291-332), the joystick/LED handler;
* the body of the `while(1)` loop of `main` (lines 403-428): duty-cycle
  mapping, day/night mode decision and the edge-triggered redraw.

Machine integers are `Int`/`Nat` with explicit wrap-around.  `int` is 32 bits
wide on the target (Cortex-M3); signed overflow wraps (two's complement), as
the target's instructions do.
-/

namespace Wiatrak

/-! ## Machine arithmetic -/

/-- Reinterpretation of an integer as a 32-bit two's complement `int`. -/
def wrap32 (x : Int) : Int := (x + 2147483648) % 4294967296 - 2147483648

/-- Conversion of an `int` to `uint32_t` (value modulo `2^32`). -/
def toU32 (x : Int) : Nat := (x % 4294967296).toNat

/-- Truncation to `uint8_t`. -/
def toU8 (x : Nat) : Nat := x % 256

/-! ## Memory -/

/-- Byte-addressed memory together with the log of the stores made through
`pBuf`: `trace` lists the indices `i` of the stores `pBuf[i] = ...`, most
recent first. -/
structure Ram where
  mem : Int → Nat
  trace : List Int

/-- The store `pBuf[idx] = byte`. -/
def Ram.store (r : Ram) (pBuf idx : Int) (byte : Nat) : Ram :=
  { mem := fun a => if a = pBuf + idx then byte else r.mem a
    trace := idx :: r.trace }

/-! ## `intToString` -/

/-- The digit alphabet `pAscii` of `intToString`, as character codes. -/
def pAscii : List Nat := "0123456789abcdefghijklmnopqrstuvwxyz".toList.map Char.toNat

/-- Bound on the iterations of each `do ... while` loop of `intToString`
that the model executes; `none` is returned when it is exceeded. -/
def loopFuel : Nat := 32

/-- First loop of `intToString`:
`do { pos++; tmpValue /= base; } while (tmpValue > 0);`
`tmpValue` is an `int` and `base` a `uint32_t`, so the division is unsigned
and its result is converted back to `int`. -/
def countLoop : Nat → Int → Nat → Int → Option Int
  | 0, _, _, _ => none
  | fuel + 1, tmpValue, base, pos =>
    let pos := wrap32 (pos + 1)
    let tmpValue := wrap32 ((toU32 tmpValue / base : Nat) : Int)
    if tmpValue > 0 then countLoop fuel tmpValue base pos else some pos

/-- Second loop of `intToString`:
`do { pBuf[--pos] = pAscii[value % base]; value /= base; } while (value > 0);`
with unsigned `%` and `/` as in `countLoop`. -/
def writeLoop : Nat → Int → Nat → Int → Int → Ram → Option Ram
  | 0, _, _, _, _, _ => none
  | fuel + 1, value, base, pos, pBuf, r =>
    let pos := wrap32 (pos - 1)
    let r := r.store pBuf pos (pAscii.getD (toU32 value % base) 0)
    let value := wrap32 ((toU32 value / base : Nat) : Int)
    if value > 0 then writeLoop fuel value base pos pBuf r else some r

/-- The function `intToString(value, pBuf, len, base)`.  `pBuf` is the address
held by the pointer (`0` is `NULL`); the result is the memory after the call,
or `none` if a loop exceeds `loopFuel` iterations. -/
def intToString (value : Int) (r : Ram) (pBuf : Int) (len base : Nat) : Option Ram :=
  if pBuf = 0 ∨ len < 2 then some r
  else if base < 2 ∨ base > 36 then some r
  else
    let neg := decide (value < 0)
    let tmpValue := if neg then wrap32 (-value) else value
    let value := if neg then wrap32 (-value) else value
    let r := if neg then r.store pBuf 0 45 else r
    let pos : Int := if neg then 1 else 0
    match countLoop loopFuel tmpValue base pos with
    | none => none
    | some pos =>
      if toU32 pos > len then some r
      else
        let r := r.store pBuf pos 0
        writeLoop loopFuel value base pos pBuf r

/-- Memory with every byte equal to `byte` and no store logged. -/
def Ram.fill (byte : Nat) : Ram := { mem := fun _ => byte, trace := [] }

/-- Memory with every byte zero and no store logged. -/
def Ram.zero : Ram := Ram.fill 0

/-- Operand of the two loops: `value` after the sign handling of lines
229-233. -/
def magnitude (value : Int) : Int := if value < 0 then wrap32 (-value) else value

/-! ### Reading the text back

These definitions do not come from `main.c`: they say what the spec means by
the produced text and by parsing it. -/

/-- The bytes `mem[addr], ..., mem[addr + n - 1]`. -/
def readBytes (mem : Int → Nat) (addr : Int) (n : Nat) : List Nat :=
  (List.range n).map (fun (i : Nat) => mem (addr + (i : Int)))

/-- The C string at `addr`: the bytes before the first NUL, which must be
among the first `cap` bytes; `none` when it is not. -/
def cString (mem : Int → Nat) (addr : Int) : Nat → Option (List Nat)
  | 0 => none
  | cap + 1 =>
    if mem addr = 0 then some []
    else (cString mem (addr + 1) cap).map (fun rest => mem addr :: rest)

/-- Value of a digit character of the alphabet `0-9a-z`. -/
def digitValue (ch : Nat) : Option Nat :=
  if 48 ≤ ch ∧ ch ≤ 57 then some (ch - 48)
  else if 97 ≤ ch ∧ ch ≤ 122 then some (ch - 97 + 10)
  else none

/-- Positional value of a run of digit characters, most significant first,
continuing from `acc`; `none` when a character is not a digit of the base. -/
def parseDigits (base : Nat) (acc : Nat) : List Nat → Option Nat
  | [] => some acc
  | ch :: rest =>
    match digitValue ch with
    | some d => if d < base then parseDigits base (acc * base + d) rest else none
    | none => none

/-- Reading of a text as an integer in the given base: an optional leading
`-` (code 45) followed by at least one digit of the base. -/
def parseInt (base : Nat) (text : List Nat) : Option Int :=
  match text with
  | [] => none
  | ch :: rest =>
    if ch = 45 then
      if rest = [] then none else (parseDigits base 0 rest).map (fun (n : Nat) => -(n : Int))
    else (parseDigits base 0 (ch :: rest)).map (fun (n : Nat) => (n : Int))

/-- Number of characters of the rendering of `value` in `base`: the sign, if
any, and the digits of the magnitude. -/
def textLength (value : Int) (base : Nat) : Nat :=
  (if value < 0 then 1 else 0) + (Nat.log base value.natAbs + 1)

/-! ## `joystic_colors` -/

/-- Constants of the board-support headers `rgb.h` and `joystick.h`, which
`main.c` uses by name only; they are parameters of the model. -/
structure Board where
  RGB_RED : Nat
  RGB_GREEN : Nat
  RGB_BLUE : Nat
  JOYSTICK_CENTER : Nat
  JOYSTICK_UP : Nat
  JOYSTICK_DOWN : Nat
  JOYSTICK_LEFT : Nat
  JOYSTICK_RIGHT : Nat

/-- Local variables `r`, `g`, `b` of `joystic_colors` (all `uint8_t`) and the
arguments of the `rgb_setLeds` calls made so far, in program order. -/
structure Rgb where
  r : Nat
  g : Nat
  b : Nat
  calls : List Nat

/-- The function `joystic_colors()`, given the value returned by
`joystick_read()`.  The result lists the masks passed to `rgb_setLeds`, in
program order.  The locals `r`, `g`, `b` start at `0` on every call. -/
def joystic_colors (c : Board) (joystick_read : Nat) : List Nat :=
  let s : Rgb := { r := 0, g := 0, b := 0, calls := [] }
  let joy := toU8 joystick_read
  let s : Rgb :=
    if joy &&& c.JOYSTICK_CENTER ≠ 0 then
      { r := toU8 c.RGB_RED, b := toU8 c.RGB_BLUE, g := toU8 c.RGB_GREEN,
        calls := s.calls ++ [c.RGB_RED ||| c.RGB_GREEN ||| c.RGB_BLUE] }
    else s
  let s : Rgb :=
    if joy &&& c.JOYSTICK_DOWN ≠ 0 then
      { r := 0, g := 0, b := 0, calls := s.calls ++ [0] }
    else s
  let s : Rgb :=
    if joy &&& c.JOYSTICK_LEFT ≠ 0 then
      let r := if s.r = 0 then 1 else 0
      { s with r := r, calls := s.calls ++ [r ||| s.g ||| s.b] }
    else s
  let s : Rgb :=
    if joy &&& c.JOYSTICK_UP ≠ 0 then
      let g := if s.g ≠ 0 then 0 else toU8 c.RGB_GREEN
      { s with g := g, calls := s.calls ++ [s.r ||| g ||| s.b] }
    else s
  let s : Rgb :=
    if joy &&& c.JOYSTICK_RIGHT ≠ 0 then
      let b := if s.b ≠ 0 then 0 else toU8 c.RGB_BLUE
      { s with b := b, calls := s.calls ++ [s.r ||| s.g ||| b] }
    else s
  s.calls

/-- Modelled from the spec: `rgb_setLeds(mask)` (board-support code, absent
from the sources) sets the physical state of all three LEDs from `mask`, so
the LED state after a sequence of calls is the last mask passed, or the prior
state when no call was made. -/
def ledsAfter (prior : Nat) (masks : List Nat) : Nat := masks.getLast?.getD prior

/-- One call of `joystic_colors()` as a step on the LED state. -/
def joysticStep (c : Board) (joystick_read : Nat) (leds : Nat) : Nat :=
  ledsAfter leds (joystic_colors c joystick_read)

/-- A sample in which only `Center` is pressed. -/
def onlyCenter (c : Board) (joy : Nat) : Prop :=
  toU8 joy &&& c.JOYSTICK_CENTER ≠ 0 ∧ toU8 joy &&& c.JOYSTICK_DOWN = 0 ∧
    toU8 joy &&& c.JOYSTICK_LEFT = 0 ∧ toU8 joy &&& c.JOYSTICK_UP = 0 ∧
    toU8 joy &&& c.JOYSTICK_RIGHT = 0

/-- A sample in which only `Down` is pressed. -/
def onlyDown (c : Board) (joy : Nat) : Prop :=
  toU8 joy &&& c.JOYSTICK_CENTER = 0 ∧ toU8 joy &&& c.JOYSTICK_DOWN ≠ 0 ∧
    toU8 joy &&& c.JOYSTICK_LEFT = 0 ∧ toU8 joy &&& c.JOYSTICK_UP = 0 ∧
    toU8 joy &&& c.JOYSTICK_RIGHT = 0

/-- A sample in which only `Left` is pressed. -/
def onlyLeft (c : Board) (joy : Nat) : Prop :=
  toU8 joy &&& c.JOYSTICK_CENTER = 0 ∧ toU8 joy &&& c.JOYSTICK_DOWN = 0 ∧
    toU8 joy &&& c.JOYSTICK_LEFT ≠ 0 ∧ toU8 joy &&& c.JOYSTICK_UP = 0 ∧
    toU8 joy &&& c.JOYSTICK_RIGHT = 0

instance (c : Board) (joy : Nat) : Decidable (onlyCenter c joy) := by
  unfold onlyCenter; infer_instance

instance (c : Board) (joy : Nat) : Decidable (onlyDown c joy) := by
  unfold onlyDown; infer_instance

instance (c : Board) (joy : Nat) : Decidable (onlyLeft c joy) := by
  unfold onlyLeft; infer_instance

/-- A concrete choice of the header constants, used to evaluate the model:
within each header every constant is a distinct single bit. -/
def demoBoard : Board :=
  { RGB_RED := 1, RGB_BLUE := 2, RGB_GREEN := 4,
    JOYSTICK_CENTER := 1, JOYSTICK_UP := 2, JOYSTICK_DOWN := 4,
    JOYSTICK_LEFT := 8, JOYSTICK_RIGHT := 16 }

/-! ## The loop of `main` -/

/-- The display colours of `oled.h`. -/
inductive oled_color_t where
  | OLED_COLOR_BLACK
  | OLED_COLOR_WHITE
  deriving DecidableEq, Repr

open oled_color_t

/-- Calls made by the loop body to the display and timing collaborators. -/
inductive Call where
  | update_screen_mode (mode : Nat)
  | oled_fillRect (x y w h : Nat) (color : oled_color_t)
  | oled_putString (x y : Nat) (pStr : Int) (fg bg : oled_color_t)
  | delayms (milliseconds : Nat)
  deriving DecidableEq

/-- What one iteration reads from the hardware: the results of
`Read_Potentiometer()`, `light_read()`, `joystick_read()`, `temp_read()` and
the register `LPC_PWM1->MR0`. -/
structure Sample where
  adc_value : Nat
  MR0 : Nat
  lux : Nat
  joy : Nat
  t : Int

/-- State carried from one iteration to the next. -/
structure Machine where
  MR1 : Nat
  LER : Nat
  night_mode : Nat
  leds : Nat
  ram : Ram

/-- The expression `(adc_value * LPC_PWM1->MR0) / 4095` of line 405:
`adc_value` is promoted and the product is taken in `uint32_t`. -/
def dutyCycle (adc_value MR0 : Nat) : Nat := (adc_value * MR0) % 4294967296 / 4095

/-- The expression `(lux < 500) ? 1 : 0` of line 410. -/
def currentMode (lux : Nat) : Nat := if lux < 500 then 1 else 0

/-- One iteration of the `while(1)` loop of `main` (lines 404-426).  `buf` is
the address of the static array `buf`.  The result is the next state and the
calls made, in program order. -/
def mainLoopBody (c : Board) (buf : Int) (s : Machine) (i : Sample) :
    Option (Machine × List Call) :=
  let adc_value := i.adc_value % 65536
  let MR1 := dutyCycle adc_value i.MR0
  let LER := s.LER ||| 2
  let lux := i.lux
  let leds := joysticStep c i.joy s.leds
  let current_mode := currentMode lux
  let night_mode := if current_mode ≠ s.night_mode then current_mode else s.night_mode
  let calls : List Call :=
    if current_mode ≠ s.night_mode then [Call.update_screen_mode night_mode] else []
  match intToString i.t s.ram buf 10 10 with
  | none => none
  | some ram =>
    let txt_color := if night_mode ≠ 0 then OLED_COLOR_WHITE else OLED_COLOR_BLACK
    let bg_color := if night_mode ≠ 0 then OLED_COLOR_BLACK else OLED_COLOR_WHITE
    let calls := calls ++ [Call.oled_fillRect 73 20 80 8 bg_color,
      Call.oled_putString 73 20 buf txt_color bg_color, Call.delayms 200]
    some ({ MR1 := MR1, LER := LER, night_mode := night_mode, leds := leds, ram := ram },
      calls)

/-- Number of `update_screen_mode` calls in a list of calls. -/
def redraws : List Call → Nat
  | [] => 0
  | Call.update_screen_mode _ :: cs => redraws cs + 1
  | _ :: cs => redraws cs

/-- The colour pairs `(fg, bg)` passed to `oled_putString` in a list of calls. -/
def glyphColours : List Call → List (oled_color_t × oled_color_t)
  | [] => []
  | Call.oled_putString _ _ _ fg bg :: cs => (fg, bg) :: glyphColours cs
  | _ :: cs => glyphColours cs

/-- The state at the first iteration: `night_mode` holds its initialiser
`0xFF`, `MR1` the `0` written by `PWM_Init`; the rest is arbitrary. -/
def initialMachine (LER leds : Nat) (ram : Ram) : Machine :=
  { MR1 := 0, LER := LER, night_mode := 255, leds := leds, ram := ram }

/-! ## Lemmas on `intToString` -/

theorem wrap32_of_range (x : Int) (h1 : -2147483648 ≤ x) (h2 : x < 2147483648) :
    wrap32 x = x := by
  unfold wrap32; omega

theorem toU32_lt (x : Int) : toU32 x < 4294967296 := by
  unfold toU32; omega

theorem toU32_natCast (n : Nat) (h : n < 4294967296) : toU32 (n : Int) = n := by
  unfold toU32; omega

/-- The unsigned quotient of a 32-bit value by a base of at least two fits in `int`. -/
theorem div_base_lt (n base : Nat) (hn : n < 4294967296) (hb : 2 ≤ base) :
    n / base < 2147483648 := by
  have h1 : n / base ≤ n / 2 := Nat.div_le_div_left hb (by norm_num)
  omega

theorem wrap32_div (x : Int) (base : Nat) (hb : 2 ≤ base) :
    wrap32 ((toU32 x / base : Nat) : Int) = ((toU32 x / base : Nat) : Int) := by
  have h := div_base_lt (toU32 x) base (toU32_lt x) hb
  generalize toU32 x / base = q at h ⊢
  apply wrap32_of_range <;> omega

theorem toU32_wrap32_div (x : Int) (base : Nat) (hb : 2 ≤ base) :
    toU32 (wrap32 ((toU32 x / base : Nat) : Int)) = toU32 x / base := by
  rw [wrap32_div x base hb]
  have h := div_base_lt (toU32 x) base (toU32_lt x) hb
  apply toU32_natCast; omega

theorem countLoop_eq (base : Nat) (hb : 2 ≤ base) :
    ∀ (fuel : Nat) (tmpValue pos : Int), Nat.log base (toU32 tmpValue) < fuel →
      0 ≤ pos → pos + fuel < 2147483648 →
      countLoop fuel tmpValue base pos = some (pos + (Nat.log base (toU32 tmpValue) + 1 : Nat)) := by
  intro fuel
  induction fuel with
  | zero => intro _ _ h; exact absurd h (Nat.not_lt_zero _)
  | succ fuel ih =>
    intro tmpValue pos hlog hpos hlt
    have hw : wrap32 (pos + 1) = pos + 1 := by apply wrap32_of_range <;> omega
    simp only [countLoop]
    rw [hw, wrap32_div tmpValue base hb]
    by_cases hq : toU32 tmpValue / base = 0
    · have hlt2 : toU32 tmpValue < base :=
        (Nat.div_eq_zero_iff (by omega)).mp hq
      rw [hq, if_neg (by simp), Nat.log_of_lt hlt2]
      simp
    · have hge : base ≤ toU32 tmpValue := by
        by_contra hc
        exact hq (Nat.div_eq_of_lt (by omega))
      have hstep : Nat.log base (toU32 tmpValue) = Nat.log base (toU32 tmpValue / base) + 1 :=
        Nat.log_of_one_lt_of_le (by omega) hge
      have hq0 : (0 : Int) < ((toU32 tmpValue / base : Nat) : Int) :=
        Int.natCast_pos.mpr (Nat.pos_of_ne_zero hq)
      rw [if_pos hq0]
      have h2 := toU32_wrap32_div tmpValue base hb
      rw [wrap32_div tmpValue base hb] at h2
      rw [ih _ _ (by rw [h2]; omega) (by omega) (by push_cast at hlt ⊢; omega), h2, hstep]
      push_cast; ring_nf

theorem pAscii_getD (k : Nat) (hk : k < 36) :
    pAscii.getD k 0 ≠ 0 ∧ digitValue (pAscii.getD k 0) = some k := by
  interval_cases k <;> decide

theorem readBytes_succ (mem : Int → Nat) (addr : Int) (n : Nat) :
    readBytes mem addr (n + 1) = readBytes mem addr n ++ [mem (addr + (n : Int))] := by
  simp [readBytes, List.range_succ]

theorem readBytes_one (mem : Int → Nat) (addr : Int) :
    readBytes mem addr 1 = [mem addr] := by
  simp [readBytes, List.range_succ]

theorem store_mem_at (r : Ram) (pBuf idx : Int) (byte : Nat) (a : Int) (h : a = pBuf + idx) :
    (r.store pBuf idx byte).mem a = byte := by
  simp [Ram.store, h]

theorem parseDigits_append (base : Nat) (xs : List Nat) (ch : Nat) :
    ∀ acc, parseDigits base acc (xs ++ [ch]) =
      (parseDigits base acc xs).bind (fun a => parseDigits base a [ch]) := by
  induction xs with
  | nil => intro acc; simp [parseDigits]
  | cons x xs ih =>
    intro acc
    simp only [List.cons_append, parseDigits]
    cases digitValue x with
    | none => simp
    | some d =>
      by_cases hd : d < base
      · simp only [hd, if_true]; exact ih _
      · simp [hd]

theorem parseDigits_single (base acc k : Nat) (hk : k < base) (hb : base ≤ 36) :
    parseDigits base acc [pAscii.getD k 0] = some (acc * base + k) := by
  simp only [parseDigits]
  rw [(pAscii_getD k (by omega)).2]
  simp [hk]

theorem writeLoop_spec (base : Nat) (hb : 2 ≤ base) (hb2 : base ≤ 36) (pBuf : Int) :
    ∀ (fuel : Nat) (value pos : Int) (r : Ram),
      Nat.log base (toU32 value) < fuel →
      ((Nat.log base (toU32 value) + 1 : Nat) : Int) ≤ pos → pos < 2147483648 →
      ∃ r', writeLoop fuel value base pos pBuf r = some r' ∧
        (∀ a, (a < pBuf + pos - ((Nat.log base (toU32 value) + 1 : Nat) : Int) ∨ pBuf + pos ≤ a) →
          r'.mem a = r.mem a) ∧
        parseDigits base 0 (readBytes r'.mem
          (pBuf + pos - ((Nat.log base (toU32 value) + 1 : Nat) : Int))
          (Nat.log base (toU32 value) + 1)) = some (toU32 value) ∧
        (∀ ch ∈ readBytes r'.mem
          (pBuf + pos - ((Nat.log base (toU32 value) + 1 : Nat) : Int))
          (Nat.log base (toU32 value) + 1), ch ≠ 0) := by
  intro fuel
  induction fuel with
  | zero => intro _ _ _ h; exact absurd h (Nat.not_lt_zero _)
  | succ fuel ih =>
    intro value pos r hlog hpos hlt
    have hw : wrap32 (pos - 1) = pos - 1 := by apply wrap32_of_range <;> omega
    have hmod : toU32 value % base < base := Nat.mod_lt _ (by omega)
    simp only [writeLoop]
    rw [hw, wrap32_div value base hb]
    by_cases hq : toU32 value / base = 0
    · have hlt2 : toU32 value < base := (Nat.div_eq_zero_iff (by omega)).mp hq
      rw [hq, if_neg (by simp), Nat.log_of_lt hlt2]
      refine ⟨_, rfl, ?_, ?_, ?_⟩
      · intro a ha
        simp only [Ram.store]
        rw [if_neg]; push_cast at ha; omega
      · have : readBytes (r.store pBuf (pos - 1) (pAscii.getD (toU32 value % base) 0)).mem
            (pBuf + pos - ((0 + 1 : Nat) : Int)) (0 + 1) = [pAscii.getD (toU32 value % base) 0] := by
          rw [Nat.zero_add, readBytes_one, store_mem_at _ _ _ _ _ (by push_cast; ring)]
        rw [this, parseDigits_single base 0 _ hmod hb2, Nat.mod_eq_of_lt hlt2]; simp
      · have : readBytes (r.store pBuf (pos - 1) (pAscii.getD (toU32 value % base) 0)).mem
            (pBuf + pos - ((0 + 1 : Nat) : Int)) (0 + 1) = [pAscii.getD (toU32 value % base) 0] := by
          rw [Nat.zero_add, readBytes_one, store_mem_at _ _ _ _ _ (by push_cast; ring)]
        rw [this]
        intro ch hch
        rw [List.mem_singleton.mp hch]
        exact (pAscii_getD _ (by omega)).1
    · have hge : base ≤ toU32 value := by
        by_contra hc
        exact hq (Nat.div_eq_of_lt (by omega))
      have hstep : Nat.log base (toU32 value) = Nat.log base (toU32 value / base) + 1 :=
        Nat.log_of_one_lt_of_le (by omega) hge
      have hq0 : (0 : Int) < ((toU32 value / base : Nat) : Int) :=
        Int.natCast_pos.mpr (Nat.pos_of_ne_zero hq)
      rw [if_pos hq0]
      have h2 := toU32_wrap32_div value base hb
      rw [wrap32_div value base hb] at h2
      obtain ⟨r', hr', hframe, hparse, hnz⟩ :=
        ih ((toU32 value / base : Nat) : Int) (pos - 1)
          (r.store pBuf (pos - 1) (pAscii.getD (toU32 value % base) 0))
          (by rw [h2]; omega) (by rw [h2]; push_cast at hpos ⊢; omega) (by omega)
      rw [h2] at hframe hparse hnz
      have hstart : pBuf + (pos - 1) - ((Nat.log base (toU32 value / base) + 1 : Nat) : Int)
          = pBuf + pos - ((Nat.log base (toU32 value) + 1 : Nat) : Int) := by
        rw [hstep]; push_cast; ring
      rw [hstart] at hframe hparse hnz
      have hlast : r'.mem (pBuf + pos - ((Nat.log base (toU32 value) + 1 : Nat) : Int)
          + ((Nat.log base (toU32 value / base) + 1 : Nat) : Int))
          = pAscii.getD (toU32 value % base) 0 := by
        rw [hframe _ (Or.inr (by rw [hstep]; push_cast; omega))]
        simp only [Ram.store]
        rw [if_pos (by rw [hstep]; push_cast; ring)]
      refine ⟨r', hr', ?_, ?_, ?_⟩
      · intro a ha
        rw [hframe a (by omega)]
        simp only [Ram.store]
        rw [if_neg]; push_cast at ha; omega
      · rw [show Nat.log base (toU32 value) + 1 = (Nat.log base (toU32 value / base) + 1) + 1 by omega]
        rw [readBytes_succ, parseDigits_append]
        rw [show (Nat.log base (toU32 value / base) + 1) + 1 = Nat.log base (toU32 value) + 1 by omega]
        rw [hparse, hlast]
        simp only [Option.bind]
        rw [parseDigits_single base _ _ hmod hb2, Nat.div_add_mod']
      · rw [show Nat.log base (toU32 value) + 1 = (Nat.log base (toU32 value / base) + 1) + 1 by omega]
        rw [readBytes_succ]
        intro ch hch
        rcases List.mem_append.mp hch with h | h
        · apply hnz
          rw [show (Nat.log base (toU32 value / base) + 1) + 1 = Nat.log base (toU32 value) + 1 by omega] at h
          exact h
        · rw [List.mem_singleton.mp h]
          rw [show (Nat.log base (toU32 value / base) + 1) + 1 = Nat.log base (toU32 value) + 1 by omega]
          rw [hlast]
          exact (pAscii_getD _ (by omega)).1

theorem log_lt_fuel (base n : Nat) (hb : 2 ≤ base) (hn : n < 4294967296) :
    Nat.log base n < loopFuel := by
  have h1 : Nat.log base n ≤ Nat.log 2 n := Nat.log_anti_left (by norm_num) hb
  have h2 : Nat.log 2 n < 32 := by
    by_cases h0 : n = 0
    · subst h0; simp
    · exact Nat.log_lt_of_lt_pow h0 (by norm_num; omega)
  unfold loopFuel; omega

theorem readBytes_cons (mem : Int → Nat) (addr : Int) (n : Nat) :
    readBytes mem addr (n + 1) = mem addr :: readBytes mem (addr + 1) n := by
  simp only [readBytes, List.range_succ_eq_map, List.map_cons, List.map_map]
  simp only [Nat.cast_zero, add_zero, List.cons.injEq, true_and]
  apply List.map_congr_left
  intro i _
  simp only [Function.comp, Nat.cast_succ]
  congr 1; ring

theorem cString_eq (mem : Int → Nat) :
    ∀ (k cap : Nat) (addr : Int), k < cap → (∀ ch ∈ readBytes mem addr k, ch ≠ 0) →
      mem (addr + (k : Int)) = 0 → cString mem addr cap = some (readBytes mem addr k) := by
  intro k
  induction k with
  | zero =>
    intro cap addr hk _ hz
    obtain ⟨cap, rfl⟩ : ∃ c, cap = c + 1 := ⟨cap - 1, by omega⟩
    simp only [Nat.cast_zero, add_zero] at hz
    simp [cString, hz, readBytes]
  | succ k ih =>
    intro cap addr hk hnz hz
    obtain ⟨cap, rfl⟩ : ∃ c, cap = c + 1 := ⟨cap - 1, by omega⟩
    rw [readBytes_cons] at hnz ⊢
    have h0 : mem addr ≠ 0 := hnz _ (List.mem_cons_self _ _)
    simp only [cString, if_neg h0]
    rw [ih cap (addr + 1) (by omega) (fun ch hch => hnz ch (List.mem_cons_of_mem _ hch))
      (by rw [← hz]; congr 1; push_cast; ring)]
    rfl

theorem toU32_magnitude (value : Int) (h1 : -2147483648 ≤ value) (h2 : value ≤ 2147483647) :
    toU32 (magnitude value) = value.natAbs := by
  unfold magnitude
  by_cases hneg : value < 0
  · rw [if_pos hneg]; unfold toU32 wrap32; omega
  · rw [if_neg hneg]; unfold toU32; omega

/-- Shape of a call with valid arguments: the sign store, the length check,
the terminator store and the digit loop. -/
theorem intToString_valid (value : Int) (r : Ram) (pBuf : Int) (len base : Nat)
    (h1 : -2147483648 ≤ value) (h2 : value ≤ 2147483647) (hb : 2 ≤ base) (hb2 : base ≤ 36)
    (hp : pBuf ≠ 0) (hl : 2 ≤ len) :
    intToString value r pBuf len base =
      if len < textLength value base then
        some (if value < 0 then r.store pBuf 0 45 else r)
      else
        writeLoop loopFuel (magnitude value) base (textLength value base : Nat) pBuf
          ((if value < 0 then r.store pBuf 0 45 else r).store pBuf (textLength value base : Nat) 0) := by
  have hm := toU32_magnitude value h1 h2
  have hfuel := log_lt_fuel base (toU32 (magnitude value)) hb (toU32_lt _)
  have hf32 : loopFuel = 32 := rfl
  unfold intToString
  rw [if_neg (by omega), if_neg (by omega)]
  by_cases hneg : value < 0
  · have hmag : magnitude value = wrap32 (-value) := by unfold magnitude; rw [if_pos hneg]
    simp only [hneg, decide_True, if_true]
    rw [← hmag, countLoop_eq base hb loopFuel _ 1 hfuel (by norm_num) (by rw [hf32]; norm_num)]
    have hpos : (1 : Int) + ((Nat.log base (toU32 (magnitude value)) + 1 : Nat) : Int)
        = ((textLength value base : Nat) : Int) := by
      unfold textLength; rw [if_pos hneg, hm]; push_cast; ring
    simp only [hpos]
    rw [toU32_natCast _ (by unfold textLength; rw [if_pos hneg, ← hm]; omega)]
  · have hmag : magnitude value = value := by unfold magnitude; rw [if_neg hneg]
    simp only [hneg, decide_False, if_false, Bool.false_eq_true]
    rw [hmag] at hfuel hm ⊢
    rw [countLoop_eq base hb loopFuel _ 0 hfuel (by norm_num) (by rw [hf32]; norm_num)]
    have hpos : (0 : Int) + ((Nat.log base (toU32 value) + 1 : Nat) : Int)
        = ((textLength value base : Nat) : Int) := by
      unfold textLength; rw [if_neg hneg, hm]; push_cast; ring
    simp only [hpos]
    rw [toU32_natCast _ (by unfold textLength; rw [if_neg hneg, ← hm]; omega)]

/-- With valid arguments the call returns. -/
theorem intToString_total (value : Int) (r : Ram) (pBuf : Int) (len base : Nat)
    (h1 : -2147483648 ≤ value) (h2 : value ≤ 2147483647) :
    ∃ r', intToString value r pBuf len base = some r' := by
  by_cases hg : (pBuf = 0 ∨ len < 2) ∨ (base < 2 ∨ base > 36)
  · refine ⟨r, ?_⟩
    unfold intToString
    rcases hg with hg | hg
    · rw [if_pos hg]
    · by_cases hg1 : pBuf = 0 ∨ len < 2
      · rw [if_pos hg1]
      · rw [if_neg hg1, if_pos hg]
  · have hp : pBuf ≠ 0 := fun h => hg (Or.inl (Or.inl h))
    have hb : 2 ≤ base := by by_contra h; exact hg (Or.inr (Or.inl (by omega)))
    have hb2 : base ≤ 36 := by by_contra h; exact hg (Or.inr (Or.inr (by omega)))
    have hl : 2 ≤ len := by by_contra h; exact hg (Or.inl (Or.inr (by omega)))
    rw [intToString_valid value r pBuf len base h1 h2 hb hb2 hp hl]
    by_cases hlen : len < textLength value base
    · rw [if_pos hlen]; exact ⟨_, rfl⟩
    · rw [if_neg hlen]
      have hm := toU32_magnitude value h1 h2
      have hfuel := log_lt_fuel base (toU32 (magnitude value)) hb (toU32_lt _)
      have hf32 : loopFuel = 32 := rfl
      obtain ⟨r', hr', _⟩ := writeLoop_spec base hb hb2 pBuf loopFuel (magnitude value)
        (textLength value base : Nat) _ hfuel
        (by unfold textLength; rw [hm]; push_cast; split <;> omega)
        (by unfold textLength; rw [← hm]; split <;> push_cast <;> omega)
      exact ⟨r', hr'⟩

theorem readBytes_length (mem : Int → Nat) (addr : Int) (n : Nat) :
    (readBytes mem addr n).length = n := by
  simp [readBytes]

theorem parseInt_of_digits (base n : Nat) (text : List Nat) (hne : text ≠ [])
    (h : parseDigits base 0 text = some n) : parseInt base text = some (n : Int) := by
  cases text with
  | nil => exact absurd rfl hne
  | cons ch rest =>
    by_cases h45 : ch = 45
    · subst h45
      have : digitValue 45 = none := by decide
      simp [parseDigits, this] at h
    · simp only [parseInt, if_neg h45, h, Option.map]

theorem parseInt_neg (base n : Nat) (digits : List Nat) (hne : digits ≠ [])
    (h : parseDigits base 0 digits = some n) :
    parseInt base (45 :: digits) = some (-(n : Int)) := by
  simp only [parseInt, if_true, if_neg hne, h, Option.map]

/-! ## The claims on `intToString` -/

/-- C1: `intToString` round-trips.  For every 32-bit signed `value` (the
minimum included), every base in `2..36` and every non-null buffer whose
capacity `len` is strictly greater than the number of characters of the
rendering, the call returns, the buffer then holds a NUL-terminated text
within its first `len` bytes, of exactly that number of characters, and
parsing this text (optional `-`, then digits of `0-9a-z`) in the same base
gives `value`. -/
theorem intToString_roundtrip (value : Int) (r : Ram) (pBuf : Int) (len base : Nat)
    (hv : -2147483648 ≤ value ∧ value ≤ 2147483647) (hb : 2 ≤ base ∧ base ≤ 36)
    (hp : pBuf ≠ 0) (hlen : textLength value base < len) :
    ∃ r' text, intToString value r pBuf len base = some r' ∧
      cString r'.mem pBuf len = some text ∧ text.length = textLength value base ∧
      parseInt base text = some value := by
  obtain ⟨h1, h2⟩ := hv
  obtain ⟨hb, hb2⟩ := hb
  have hm := toU32_magnitude value h1 h2
  have hfuel := log_lt_fuel base (toU32 (magnitude value)) hb (toU32_lt _)
  have hL : textLength value base = (if value < 0 then 1 else 0) + (Nat.log base value.natAbs + 1) := rfl
  have hl : 2 ≤ len := by omega
  have hLbound : textLength value base ≤ 33 := by
    have hf32 : loopFuel = 32 := rfl
    rw [hL, ← hm]; split <;> omega
  rw [intToString_valid value r pBuf len base h1 h2 hb hb2 hp hl, if_neg (by omega)]
  obtain ⟨r', hr', hframe, hparse, hnz⟩ := writeLoop_spec base hb hb2 pBuf loopFuel (magnitude value)
    (textLength value base : Nat)
    ((if value < 0 then r.store pBuf 0 45 else r).store pBuf (textLength value base : Nat) 0) hfuel
    (by rw [hL, hm]; push_cast; split <;> omega) (by omega)
  rw [hm] at hframe hparse hnz
  have hnul : r'.mem (pBuf + (textLength value base : Nat)) = 0 := by
    rw [hframe _ (Or.inr (le_refl _))]
    exact store_mem_at _ _ _ _ _ rfl
  refine ⟨r', readBytes r'.mem pBuf (textLength value base), hr', ?_, readBytes_length _ _ _, ?_⟩
  · apply cString_eq _ _ _ _ hlen _ hnul
    by_cases hneg : value < 0
    · have hL1 : textLength value base = (Nat.log base value.natAbs + 1) + 1 := by
        rw [hL, if_pos hneg]; omega
      have hstart : pBuf + ((textLength value base : Nat) : Int)
          - ((Nat.log base value.natAbs + 1 : Nat) : Int) = pBuf + 1 := by
        rw [hL1]; push_cast; ring
      rw [hstart] at hnz
      rw [hL1, readBytes_cons]
      intro ch hch
      rcases List.mem_cons.mp hch with h | h
      · rw [h, hframe _ (Or.inl (by rw [hstart]; omega))]
        simp only [Ram.store, if_pos hneg]
        rw [if_neg (by omega)]
        simp
      · exact hnz ch h
    · have hL0 : textLength value base = Nat.log base value.natAbs + 1 := by
        rw [hL, if_neg hneg]; omega
      have hstart : pBuf + ((textLength value base : Nat) : Int)
          - ((Nat.log base value.natAbs + 1 : Nat) : Int) = pBuf := by
        rw [hL0]; push_cast; ring
      rw [hstart] at hnz
      rw [hL0]
      exact hnz
  · by_cases hneg : value < 0
    · have hL1 : textLength value base = (Nat.log base value.natAbs + 1) + 1 := by
        rw [hL, if_pos hneg]; omega
      have hstart : pBuf + ((textLength value base : Nat) : Int)
          - ((Nat.log base value.natAbs + 1 : Nat) : Int) = pBuf + 1 := by
        rw [hL1]; push_cast; ring
      have hsign : r'.mem pBuf = 45 := by
        rw [hframe _ (Or.inl (by rw [hstart]; omega))]
        simp only [Ram.store, if_pos hneg]
        rw [if_neg (by omega)]
        simp
      rw [hstart] at hparse
      rw [hL1, readBytes_cons, hsign,
        parseInt_neg base _ _ (by rw [readBytes_succ]; simp) hparse]
      have hval : -((value.natAbs : Nat) : Int) = value := by omega
      rw [hval]
    · have hL0 : textLength value base = Nat.log base value.natAbs + 1 := by
        rw [hL, if_neg hneg]; omega
      have hstart : pBuf + ((textLength value base : Nat) : Int)
          - ((Nat.log base value.natAbs + 1 : Nat) : Int) = pBuf := by
        rw [hL0]; push_cast; ring
      rw [hstart] at hparse
      rw [hL0, parseInt_of_digits base _ _ (by rw [readBytes_succ]; simp) hparse]
      have hval : ((value.natAbs : Nat) : Int) = value := by omega
      rw [hval]

/-- Witness of C1 at `value = -42`, base 10, `len = 10`: the hypotheses hold,
the round trip holds, and the buffer reads `-`, `4`, `2`, NUL. -/
theorem intToString_roundtrip_witness :
    (((-2147483648 : Int) ≤ -42 ∧ (-42 : Int) ≤ 2147483647) ∧ (2 ≤ 10 ∧ 10 ≤ 36) ∧
      (100 : Int) ≠ 0 ∧ textLength (-42) 10 < 10) ∧
    (∃ r' text, intToString (-42) Ram.zero 100 10 10 = some r' ∧
      cString r'.mem 100 10 = some text ∧ text.length = textLength (-42) 10 ∧
      parseInt 10 text = some (-42)) ∧
    (intToString (-42) Ram.zero 100 10 10).map
      (fun r => [100, 101, 102, 103].map r.mem) = some [45, 52, 50, 0] :=
  ⟨⟨by decide, by decide, by decide, by simp [textLength, Nat.log]⟩,
    intToString_roundtrip (-42) Ram.zero 100 10 10 (by decide) (by decide) (by decide)
      (by simp [textLength, Nat.log]),
    by decide⟩

/-- A negative value of magnitude at least `base ^ k` has more than `k + 1`
characters. -/
theorem lt_textLength_of_neg (value : Int) (base k : Nat) (hb : 2 ≤ base)
    (hneg : value < 0) (h : base ^ k ≤ value.natAbs) : k + 1 < textLength value base := by
  have h0 : value.natAbs ≠ 0 := by
    have := Nat.pos_pow_of_pos k (show 0 < base by omega)
    omega
  have hlog : k ≤ Nat.log base value.natAbs := Nat.le_log_of_pow_le (by omega) h
  unfold textLength
  rw [if_pos hneg]
  omega

/-- A non-negative value with `base ^ k ≤ value < base ^ (k + 1)` has exactly
`k + 1` characters. -/
theorem textLength_eq_of_nonneg (value : Int) (base k : Nat) (hb : 2 ≤ base)
    (h0 : 0 ≤ value) (h : base ^ k ≤ value.natAbs) (h2 : value.natAbs < base ^ (k + 1)) :
    textLength value base = k + 1 := by
  have hpos : 0 < base ^ k := Nat.pos_pow_of_pos k (show 0 < base by omega)
  have hlog : k ≤ Nat.log base value.natAbs := Nat.le_log_of_pow_le (by omega) h
  have hlog2 : Nat.log base value.natAbs < k + 1 := Nat.log_lt_of_lt_pow (by omega) h2
  unfold textLength
  rw [if_neg (by omega)]
  omega

/-- A non-negative value whose rendering is longer than `len` leaves the
memory untouched: the length check precedes every store on this path. -/
theorem intToString_abort_nonneg (value : Int) (r : Ram) (pBuf : Int) (len base : Nat)
    (h0 : 0 ≤ value) (h2 : value ≤ 2147483647) (hb : 2 ≤ base ∧ base ≤ 36) (hl : 2 ≤ len)
    (hlen : len < textLength value base) :
    intToString value r pBuf len base = some r := by
  by_cases hp : pBuf = 0
  · unfold intToString; rw [if_pos (Or.inl hp)]
  · rw [intToString_valid value r pBuf len base (by omega) h2 hb.1 hb.2 hp hl, if_pos hlen,
      if_neg (by omega)]

/-- C3, the code at the failing input `value = -1234567890`, base 10,
`len = 10`, on a buffer of zero bytes: the rendering has 11 characters, more
than `len`, yet the call has made one store, at index 0, and the byte there is
now `-` (45) instead of 0. -/
theorem intToString_abort_writes_sign :
    10 < textLength (-1234567890) 10 ∧
    (intToString (-1234567890) Ram.zero 100 10 10).map (fun r => (r.mem 100, r.trace)) =
      some (45, [0]) ∧
    Ram.zero.mem 100 = 0 :=
  ⟨lt_textLength_of_neg (-1234567890) 10 9 (by decide) (by decide) (by decide),
    by decide, by decide⟩

/-- C4: `intToString` fails silently on invalid arguments.  For every value,
every memory and every pointer, if `len < 2` or `base < 2` or `base > 36` the
call returns with the memory unchanged and no store made. -/
theorem intToString_invalid_args (value : Int) (r : Ram) (pBuf : Int) (len base : Nat)
    (h : len < 2 ∨ base < 2 ∨ base > 36) :
    intToString value r pBuf len base = some r := by
  unfold intToString
  by_cases h1 : pBuf = 0 ∨ len < 2
  · rw [if_pos h1]
  · rw [if_neg h1, if_pos]
    rcases h with h | h
    · exact absurd (Or.inr h) h1
    · exact h

/-- Witness of C4 at capacity 1 (value 7, base 10) and at base 37. -/
theorem intToString_invalid_args_witness :
    ((1 < 2 ∨ 10 < 2 ∨ 10 > 36) ∧ intToString 7 (Ram.fill 255) 100 1 10 = some (Ram.fill 255)) ∧
    ((10 < 2 ∨ 37 < 2 ∨ 37 > 36) ∧ intToString 7 (Ram.fill 255) 100 10 37 = some (Ram.fill 255)) :=
  ⟨⟨by decide, intToString_invalid_args 7 (Ram.fill 255) 100 1 10 (by decide)⟩,
    ⟨by decide, intToString_invalid_args 7 (Ram.fill 255) 100 10 37 (by decide)⟩⟩

/-- C10, the code at the failing input `value = 1234567890`, base 10,
`len = 10`, on a buffer of `0xFF` bytes: the rendering has exactly `len`
characters, the check `pos > len` lets it through, and the stores are made
at indices `10, 9, ..., 0` in this order (the log lists the most recent
first); the terminator is stored at index `len`, one past the buffer, where
the byte changes from 255 to 0. -/
theorem intToString_terminator_past_end :
    textLength 1234567890 10 = 10 ∧
    (intToString 1234567890 (Ram.fill 255) 100 10 10).map (fun r => (r.trace, r.mem 110)) =
      some ([0, 1, 2, 3, 4, 5, 6, 7, 8, 9, 10], 0) ∧
    (Ram.fill 255).mem 110 = 255 :=
  ⟨textLength_eq_of_nonneg 1234567890 10 9 (by decide) (by decide) (by decide) (by decide),
    by decide, by decide⟩

/-! ## The claims on `joystic_colors` -/

/-- C2, the code on a held `Left`: for every choice of the header constants
and every prior LED state, a sample with only `Left` pressed makes exactly one
`rgb_setLeds` call, with mask 1, so a second application with the same sample
leaves the LED mask at 1 again; red is not flipped back. -/
theorem joystic_colors_left_held (c : Board) (joy leds : Nat) (h : onlyLeft c joy) :
    joystic_colors c joy = [1] ∧ joysticStep c joy leds = 1 ∧
      joysticStep c joy (joysticStep c joy leds) = 1 := by
  obtain ⟨h1, h2, h3, h4, h5⟩ := h
  have hc : joystic_colors c joy = [1] := by
    simp [joystic_colors, h1, h2, h3, h4, h5]
  simp [joysticStep, ledsAfter, hc]

/-- The failing input of C2: starting from all LEDs off, two applications
with the `Left`-only sample `0x08`; the mask is 1 (red on) after the first and
still 1 after the second. -/
theorem joystic_colors_left_held_witness :
    onlyLeft demoBoard 8 ∧
    (joystic_colors demoBoard 8 = [1] ∧ joysticStep demoBoard 8 0 = 1 ∧
      joysticStep demoBoard 8 (joysticStep demoBoard 8 0) = 1) :=
  ⟨by decide, joystic_colors_left_held demoBoard 8 0 (by decide)⟩

/-- C9: forced LED states.  For every choice of the header constants and every
prior LED state, a sample with only `Center` pressed makes `rgb_setLeds` be
called once, with `RGB_RED|RGB_GREEN|RGB_BLUE`, which is then the LED mask;
a sample with only `Down` pressed makes it be called once, with 0, which is
then the LED mask. -/
theorem joystic_colors_forced (c : Board) (joy leds : Nat) :
    (onlyCenter c joy →
      joystic_colors c joy = [c.RGB_RED ||| c.RGB_GREEN ||| c.RGB_BLUE] ∧
      joysticStep c joy leds = c.RGB_RED ||| c.RGB_GREEN ||| c.RGB_BLUE) ∧
    (onlyDown c joy →
      joystic_colors c joy = [0] ∧ joysticStep c joy leds = 0) := by
  constructor
  · rintro ⟨h1, h2, h3, h4, h5⟩
    have hc : joystic_colors c joy = [c.RGB_RED ||| c.RGB_GREEN ||| c.RGB_BLUE] := by
      simp [joystic_colors, h1, h2, h3, h4, h5]
    simp [joysticStep, ledsAfter, hc]
  · rintro ⟨h1, h2, h3, h4, h5⟩
    have hc : joystic_colors c joy = [0] := by
      simp [joystic_colors, h1, h2, h3, h4, h5]
    simp [joysticStep, ledsAfter, hc]

/-- Witness of C9: the `Center`-only sample `0x01` and the `Down`-only sample
`0x04`, from the prior LED mask 5. -/
theorem joystic_colors_forced_witness :
    (onlyCenter demoBoard 1 ∧ joystic_colors demoBoard 1 = [1 ||| 4 ||| 2] ∧
      joysticStep demoBoard 1 5 = 1 ||| 4 ||| 2) ∧
    (onlyDown demoBoard 4 ∧ joystic_colors demoBoard 4 = [0] ∧
      joysticStep demoBoard 4 5 = 0) :=
  ⟨⟨by decide, (joystic_colors_forced demoBoard 1 5).1 (by decide)⟩,
    ⟨by decide, (joystic_colors_forced demoBoard 4 5).2 (by decide)⟩⟩

/-! ## The claims on the loop of `main` -/

/-- Result of one iteration: it returns whenever `t` is a 32-bit `int`, and
every component of the next state and the calls are as listed. -/
theorem mainLoopBody_eq (c : Board) (buf : Int) (s : Machine) (i : Sample)
    (ht : -2147483648 ≤ i.t ∧ i.t ≤ 2147483647) :
    ∃ ram, intToString i.t s.ram buf 10 10 = some ram ∧
      mainLoopBody c buf s i = some
        ({ MR1 := dutyCycle (i.adc_value % 65536) i.MR0, LER := s.LER ||| 2,
           night_mode := currentMode i.lux, leds := joysticStep c i.joy s.leds, ram := ram },
         (if currentMode i.lux ≠ s.night_mode then
            [Call.update_screen_mode (currentMode i.lux)] else []) ++
          [Call.oled_fillRect 73 20 80 8
              (if currentMode i.lux ≠ 0 then OLED_COLOR_BLACK else OLED_COLOR_WHITE),
            Call.oled_putString 73 20 buf
              (if currentMode i.lux ≠ 0 then OLED_COLOR_WHITE else OLED_COLOR_BLACK)
              (if currentMode i.lux ≠ 0 then OLED_COLOR_BLACK else OLED_COLOR_WHITE),
            Call.delayms 200]) := by
  obtain ⟨ram, hram⟩ := intToString_total i.t s.ram buf 10 10 ht.1 ht.2
  refine ⟨ram, hram, ?_⟩
  unfold mainLoopBody
  simp only [hram]
  by_cases hm : currentMode i.lux ≠ s.night_mode
  · simp only [if_pos hm]
  · have he : s.night_mode = currentMode i.lux := by
      by_contra hne; exact hm (fun h => hne h.symm)
    simp only [if_neg hm]
    rw [he]

/-- C5 as stated fails: with the reading 4095 and the period 1048833 the
product exceeds `2^32`; the loop writes 0 to `MR1` while the exact quotient
`(4095 * 1048833) / 4095` is 1048833. -/
theorem mainLoop_duty_overflow :
    (mainLoopBody demoBoard 100 (initialMachine 0 0 Ram.zero)
        { adc_value := 4095, MR0 := 1048833, lux := 0, joy := 0, t := 0 }).map
      (fun x => x.1.MR1) = some 0 ∧
    4095 * 1048833 / 4095 = 1048833 ∧ 1048833 < 4294967296 :=
  ⟨by decide, by decide, by decide⟩

/-- C5, amended: for every potentiometer reading `r` in `[0, 4095]` and every
period `p`, the iteration returns and the value it writes to `MR1` is
`((r * p) mod 2^32) / 4095`; this equals the exact quotient `(r * p) / 4095`
if and only if `r * p < 2^32`, which is the case for every such `r` when
`p ≤ 1048832`. -/
theorem mainLoop_duty_exact (c : Board) (buf : Int) (s : Machine) (i : Sample)
    (hr : i.adc_value ≤ 4095) (ht : -2147483648 ≤ i.t ∧ i.t ≤ 2147483647) :
    ∃ s' calls, mainLoopBody c buf s i = some (s', calls) ∧
      s'.MR1 = (i.adc_value * i.MR0) % 4294967296 / 4095 ∧
      (s'.MR1 = i.adc_value * i.MR0 / 4095 ↔ i.adc_value * i.MR0 < 4294967296) ∧
      (i.MR0 ≤ 1048832 → s'.MR1 = i.adc_value * i.MR0 / 4095) := by
  obtain ⟨ram, _, hbody⟩ := mainLoopBody_eq c buf s i ht
  have hadc : i.adc_value % 65536 = i.adc_value := Nat.mod_eq_of_lt (by omega)
  have hle : i.adc_value * i.MR0 ≤ 4095 * i.MR0 := Nat.mul_le_mul_right _ hr
  refine ⟨_, _, hbody, ?_, ?_, ?_⟩
  · simp only [dutyCycle, hadc]
  · simp only [dutyCycle, hadc]
    generalize i.adc_value * i.MR0 = x
    omega
  · intro hp
    simp only [dutyCycle, hadc]
    generalize i.adc_value * i.MR0 = x at hle ⊢
    omega

/-- Witness of C5 amended: reading 2048 and period 24999 give 12502. -/
theorem mainLoop_duty_exact_witness :
    (2048 ≤ 4095 ∧ ((-2147483648 : Int) ≤ 235 ∧ (235 : Int) ≤ 2147483647)) ∧
    ∃ s' calls, mainLoopBody demoBoard 100 (initialMachine 0 0 Ram.zero)
        { adc_value := 2048, MR0 := 24999, lux := 300, joy := 0, t := 235 } = some (s', calls) ∧
      s'.MR1 = (2048 * 24999) % 4294967296 / 4095 ∧
      (s'.MR1 = 2048 * 24999 / 4095 ↔ 2048 * 24999 < 4294967296) ∧
      (24999 ≤ 1048832 → s'.MR1 = 2048 * 24999 / 4095) :=
  ⟨⟨by decide, by decide⟩,
    mainLoop_duty_exact demoBoard 100 (initialMachine 0 0 Ram.zero)
      { adc_value := 2048, MR0 := 24999, lux := 300, joy := 0, t := 235 }
      (by decide) (by decide)⟩

/-- C6: the duty value stays within the PWM period.  For every potentiometer
reading in `[0, 4095]` and every period `p`, the iteration returns and the
value it writes to `MR1`, computed in 32-bit unsigned arithmetic, is at most
`p`. -/
theorem mainLoop_duty_le_period (c : Board) (buf : Int) (s : Machine) (i : Sample)
    (hr : i.adc_value ≤ 4095) (ht : -2147483648 ≤ i.t ∧ i.t ≤ 2147483647) :
    ∃ s' calls, mainLoopBody c buf s i = some (s', calls) ∧ s'.MR1 ≤ i.MR0 := by
  obtain ⟨ram, _, hbody⟩ := mainLoopBody_eq c buf s i ht
  have hadc : i.adc_value % 65536 = i.adc_value := Nat.mod_eq_of_lt (by omega)
  have hle : i.adc_value * i.MR0 ≤ 4095 * i.MR0 := Nat.mul_le_mul_right _ hr
  refine ⟨_, _, hbody, ?_⟩
  simp only [dutyCycle, hadc]
  generalize i.adc_value * i.MR0 = x at hle ⊢
  omega

/-- Witness of C6 at the full-scale reading 4095 and the largest 32-bit
period. -/
theorem mainLoop_duty_le_period_witness :
    (4095 ≤ 4095 ∧ ((-2147483648 : Int) ≤ 0 ∧ (0 : Int) ≤ 2147483647)) ∧
    ∃ s' calls, mainLoopBody demoBoard 100 (initialMachine 0 0 Ram.zero)
        { adc_value := 4095, MR0 := 4294967295, lux := 0, joy := 0, t := 0 } = some (s', calls) ∧
      s'.MR1 ≤ 4294967295 :=
  ⟨⟨by decide, by decide⟩,
    mainLoop_duty_le_period demoBoard 100 (initialMachine 0 0 Ram.zero)
      { adc_value := 4095, MR0 := 4294967295, lux := 0, joy := 0, t := 0 }
      (by decide) (by decide)⟩

/-- C7: edge-triggered chrome redraw.  In every iteration (which returns),
`update_screen_mode` is called exactly once when the mode computed from the
light reading differs from the persisted `night_mode` and not at all when it
is equal; when called, its argument is the computed mode; afterwards
`night_mode` is the computed mode; and from the initial `night_mode = 0xFF`
the iteration redraws whatever the light reading. -/
theorem mainLoop_redraw_on_change (c : Board) (buf : Int) (s : Machine) (i : Sample)
    (ht : -2147483648 ≤ i.t ∧ i.t ≤ 2147483647) :
    ∃ s' calls, mainLoopBody c buf s i = some (s', calls) ∧
      (currentMode i.lux ≠ s.night_mode → redraws calls = 1 ∧
        Call.update_screen_mode (currentMode i.lux) ∈ calls) ∧
      (currentMode i.lux = s.night_mode → redraws calls = 0) ∧
      s'.night_mode = currentMode i.lux ∧
      (s.night_mode = 255 → redraws calls = 1) := by
  obtain ⟨ram, _, hbody⟩ := mainLoopBody_eq c buf s i ht
  have hcm : currentMode i.lux = 0 ∨ currentMode i.lux = 1 := by
    unfold currentMode; split <;> simp
  refine ⟨_, _, hbody, ?_, ?_, rfl, ?_⟩
  · intro hne
    simp [if_pos hne, redraws]
  · intro heq
    simp [heq, redraws]
  · intro h255
    have hne : currentMode i.lux ≠ s.night_mode := by omega
    simp [if_pos hne, redraws]

/-- Witness of C7: the first iteration, at light reading 300. -/
theorem mainLoop_redraw_on_change_witness :
    ((-2147483648 : Int) ≤ 235 ∧ (235 : Int) ≤ 2147483647) ∧
    ∃ s' calls, mainLoopBody demoBoard 100 (initialMachine 0 0 Ram.zero)
        { adc_value := 2048, MR0 := 24999, lux := 300, joy := 0, t := 235 } = some (s', calls) ∧
      (currentMode 300 ≠ 255 → redraws calls = 1 ∧
        Call.update_screen_mode (currentMode 300) ∈ calls) ∧
      (currentMode 300 = 255 → redraws calls = 0) ∧
      s'.night_mode = currentMode 300 ∧
      ((255 : Nat) = 255 → redraws calls = 1) :=
  ⟨by decide,
    mainLoop_redraw_on_change demoBoard 100 (initialMachine 0 0 Ram.zero)
      { adc_value := 2048, MR0 := 24999, lux := 300, joy := 0, t := 235 } (by decide)⟩

/-- C8: mode decision threshold.  For every light reading `L` the mode
computed by the loop is 1 (Night) if `L < 500` and 0 (Day) otherwise, so 500
gives Day; the iteration returns, leaves that mode in `night_mode`, and the
one `oled_putString` call that paints the temperature glyphs uses white on
black if `L < 500` and black on white otherwise, the `oled_fillRect` before
it using the same background. -/
theorem mainLoop_mode_threshold (c : Board) (buf : Int) (s : Machine) (i : Sample)
    (ht : -2147483648 ≤ i.t ∧ i.t ≤ 2147483647) :
    (currentMode i.lux = 1 ↔ i.lux < 500) ∧ (currentMode i.lux = 0 ↔ ¬ i.lux < 500) ∧
    currentMode 500 = 0 ∧
    ∃ s' calls, mainLoopBody c buf s i = some (s', calls) ∧
      (s'.night_mode = 1 ↔ i.lux < 500) ∧ (s'.night_mode = 0 ↔ ¬ i.lux < 500) ∧
      glyphColours calls =
        [if i.lux < 500 then (OLED_COLOR_WHITE, OLED_COLOR_BLACK)
          else (OLED_COLOR_BLACK, OLED_COLOR_WHITE)] ∧
      Call.oled_fillRect 73 20 80 8
        (if i.lux < 500 then OLED_COLOR_BLACK else OLED_COLOR_WHITE) ∈ calls := by
  obtain ⟨ram, _, hbody⟩ := mainLoopBody_eq c buf s i ht
  have h1 : currentMode i.lux = 1 ↔ i.lux < 500 := by
    unfold currentMode; split <;> simp [*]
  have h0 : currentMode i.lux = 0 ↔ ¬ i.lux < 500 := by
    unfold currentMode; split <;> simp [*]
  refine ⟨h1, h0, by decide, _, _, hbody, h1, h0, ?_, ?_⟩
  · have hpre : ∀ rest : List Call,
        glyphColours ((if currentMode i.lux ≠ s.night_mode then
          [Call.update_screen_mode (currentMode i.lux)] else []) ++ rest) = glyphColours rest := by
      intro rest
      by_cases hn : currentMode i.lux ≠ s.night_mode
      · rw [if_pos hn]; rfl
      · rw [if_neg hn]; rfl
    rw [hpre]
    by_cases hl : i.lux < 500
    · have hm : currentMode i.lux = 1 := h1.mpr hl
      simp [hm, hl, glyphColours]
    · have hm : currentMode i.lux = 0 := h0.mpr hl
      simp [hm, hl, glyphColours]
  · by_cases hl : i.lux < 500
    · have hm : currentMode i.lux = 1 := h1.mpr hl
      simp [hm, hl]
    · have hm : currentMode i.lux = 0 := h0.mpr hl
      simp [hm, hl]

/-- Witness of C8 at the boundary reading 500. -/
theorem mainLoop_mode_threshold_witness :
    ((-2147483648 : Int) ≤ 235 ∧ (235 : Int) ≤ 2147483647) ∧
    ((currentMode 500 = 1 ↔ 500 < 500) ∧ (currentMode 500 = 0 ↔ ¬ 500 < 500) ∧
    currentMode 500 = 0 ∧
    ∃ s' calls, mainLoopBody demoBoard 100 (initialMachine 0 0 Ram.zero)
        { adc_value := 2048, MR0 := 24999, lux := 500, joy := 0, t := 235 } = some (s', calls) ∧
      (s'.night_mode = 1 ↔ 500 < 500) ∧ (s'.night_mode = 0 ↔ ¬ 500 < 500) ∧
      glyphColours calls =
        [if 500 < 500 then (OLED_COLOR_WHITE, OLED_COLOR_BLACK)
          else (OLED_COLOR_BLACK, OLED_COLOR_WHITE)] ∧
      Call.oled_fillRect 73 20 80 8
        (if 500 < 500 then OLED_COLOR_BLACK else OLED_COLOR_WHITE) ∈ calls) :=
  ⟨by decide,
    mainLoop_mode_threshold demoBoard 100 (initialMachine 0 0 Ram.zero)
      { adc_value := 2048, MR0 := 24999, lux := 500, joy := 0, t := 235 } (by decide)⟩

end Wiatrak
